import Mathlib

/-!
Verification of the log-scanning core of the IT-support toolkit
(`toolkit/log_parser.py` and `toolkit/utils.py`).

Lines of a text file are modelled as `List Char` values, exactly as
Python's file iteration yields them (each line keeps its trailing
newline character, except possibly the last).  The Python `dict` used
for per-keyword counters is modelled as an association list with
first-insertion key order and in-place updates, matching CPython
semantics.  Exceptions raised by `Path.open` / `validate_file` are
modelled with `Except`.
-/

/-- One character line of text, as Python's file iterator yields it. -/
abbrev Line := List Char

/-- `case_insensitive` folding: Python's `re.IGNORECASE` compares
characters caselessly; we model it by lowering every character on both
sides when the flag is set (`flags = re.IGNORECASE if case_insensitive else 0`). -/
def foldCase (ci : Bool) (s : List Char) : List Char :=
  if ci then s.map Char.toLower else s

/-- Literal substring search: `rx.search(line)` where `rx` is
`re.compile(re.escape(kw), flags)` scans left to right for an occurrence
of the escaped (hence literal) keyword. -/
def containsSub (pat : List Char) : List Char → Bool
  | [] => pat.isPrefixOf []
  | c :: rest => pat.isPrefixOf (c :: rest) || containsSub pat rest

/-- The per-keyword matcher of `parse_log_file` line 48:
`rx.search(line)` with the compiled escaped keyword. -/
def kwMatch (ci : Bool) (kw line : List Char) : Bool :=
  containsSub (foldCase ci kw) (foldCase ci line)

/-- The truncation marker appended at line 44 of `log_parser.py`
(the source literally contains these mojibake bytes). -/
def truncMarker : List Char := "â€¦(truncated)".toList

/-- Line 43–44 of `log_parser.py`:
`if len(line) > max_line_length: line = line[:max_line_length] + marker`. -/
def truncLine (maxLen : Nat) (line : Line) : Line :=
  if maxLen < line.length then line.take maxLen ++ truncMarker else line

/-- `line.rstrip("\n")`: remove every trailing newline character. -/
def rstripNL (l : List Char) : List Char :=
  (l.reverse.dropWhile (fun c => c == '\n')).reverse

/-- `LogFinding` dataclass of `log_parser.py`. -/
structure LogFinding where
  line_no : Nat
  keyword : List Char
  line : List Char
deriving DecidableEq, Repr

/-- Python `dict` membership test (`kw in by_kw`). -/
def dictHasKey (d : List (List Char × Nat)) (k : List Char) : Bool :=
  d.any (fun p => p.1 == k)

/-- One step of the dict comprehension `{kw: 0 for kw in keywords}`:
assigning an existing key leaves the dict unchanged (its value is 0
either way), a new key is appended with value 0. -/
def dictInsertZero (d : List (List Char × Nat)) (k : List Char) :
    List (List Char × Nat) :=
  if dictHasKey d k then d else d ++ [(k, 0)]

/-- `by_kw: Dict[str, int] = {kw: 0 for kw in keywords}` (line 37):
duplicate keywords collapse to a single key in first-occurrence order. -/
def dictInit (keys : List (List Char)) : List (List Char × Nat) :=
  keys.foldl dictInsertZero []

/-- `by_kw[kw] = by_kw.get(kw, 0) + 1` (line 49): update the existing
entry in place, or append the key with value 1 when absent. -/
def dictBump (d : List (List Char × Nat)) (k : List Char) :
    List (List Char × Nat) :=
  if dictHasKey d k then
    d.map (fun p => if p.1 == k then (p.1, p.2 + 1) else p)
  else d ++ [(k, 1)]

/-- `by_kw.get(k, 0)`: the counter stored for `k`, defaulting to 0. -/
def dictGet (d : List (List Char × Nat)) (k : List Char) : Nat :=
  match d.find? (fun p => p.1 == k) with
  | some p => p.2
  | none => 0

/-- Mutable loop state of `parse_log_file`: the counters `total`,
`matched`, the dict `by_kw` and the list `samples`. -/
structure ScanState where
  total : Nat
  matched : Nat
  by_kw : List (List Char × Nat)
  samples : List LogFinding
deriving DecidableEq, Repr

/-- Body of the inner loop `for kw, rx in patterns:` (lines 47–52) for a
single keyword, acting on `(by_kw, samples, hit_any)`. -/
def stepKeyword (ci : Bool) (maxSamples : Nat) (idx : Nat) (line : Line)
    (acc : List (List Char × Nat) × List LogFinding × Bool)
    (kw : List Char) :
    List (List Char × Nat) × List LogFinding × Bool :=
  if kwMatch ci kw line then
    (dictBump acc.1 kw,
     if acc.2.1.length < maxSamples then
       acc.2.1 ++ [⟨idx, kw, rstripNL line⟩]
     else acc.2.1,
     true)
  else acc

/-- Body of the outer loop `for idx, line in enumerate(f, start=1):`
(lines 41–54) for a single line. -/
def procLine (kws : List (List Char)) (ci : Bool) (maxSamples maxLen : Nat)
    (idx : Nat) (raw : Line) (st : ScanState) : ScanState :=
  let line := truncLine maxLen raw
  let acc := kws.foldl (stepKeyword ci maxSamples idx line)
      (st.by_kw, st.samples, false)
  { total := st.total + 1
    matched := if acc.2.2 then st.matched + 1 else st.matched
    by_kw := acc.1
    samples := acc.2.1 }

/-- The whole scanning loop, lines processed strictly in file order with
1-based indices. -/
def scanLoop (kws : List (List Char)) (ci : Bool) (maxSamples maxLen : Nat) :
    List Line → Nat → ScanState → ScanState
  | [], _, st => st
  | l :: ls, idx, st =>
      scanLoop kws ci maxSamples maxLen ls (idx + 1)
        (procLine kws ci maxSamples maxLen idx l st)

/-- `if not keywords: keywords = ["error"]` (lines 29–30). -/
def effKeywords (keywords : List (List Char)) : List (List Char) :=
  if keywords.isEmpty then ["error".toList] else keywords

/-- `LogParseResult` dataclass of `log_parser.py`. -/
structure LogParseResult where
  file : List Char
  total_lines : Nat
  matched_lines : Nat
  by_keyword : List (List Char × Nat)
  samples : List LogFinding
deriving DecidableEq, Repr

/-- `parse_log_file` (lines 21–62) applied to the decoded lines of the
file at `filePath`. -/
def parse_log_file (filePath : List Char) (lines : List Line)
    (keywords : List (List Char)) (case_insensitive : Bool)
    (max_samples : Nat) (max_line_length : Nat) : LogParseResult :=
  let kws := effKeywords keywords
  let st := scanLoop kws case_insensitive max_samples max_line_length
      lines 1 ⟨0, 0, dictInit kws, []⟩
  { file := filePath
    total_lines := st.total
    matched_lines := st.matched
    by_keyword := st.by_kw
    samples := st.samples }

/-- Predicate: the (possibly truncated) line matches at least one of the
keywords — the value of `hit_any` after the inner loop. -/
def lineHits (kws : List (List Char)) (ci : Bool) (maxLen : Nat)
    (raw : Line) : Bool :=
  kws.any (fun kw => kwMatch ci kw (truncLine maxLen raw))

/-- A filesystem entry: a regular file with decoded lines, or a
directory (any non-regular entry). -/
inductive FsEntry where
  | fileEntry (lines : List Line)
  | dirEntry
deriving DecidableEq

/-- Error kinds surfaced by the scan pipeline: `FileNotFoundError`
raised by `validate_file` / `Path.open` on a missing path, and
`IsADirectoryError` on a non-regular entry. -/
inductive ScanFailure where
  | fileNotFound
  | notAFile
deriving DecidableEq, Repr

/-- `validate_file` of `toolkit/utils.py` (lines 23–29) over an abstract
filesystem `fs`: missing path raises `FileNotFoundError`, a non-file
raises `IsADirectoryError`, otherwise the path is returned. -/
def validate_file (fs : String → Option FsEntry) (p : String) :
    Except ScanFailure String :=
  match fs p with
  | none => .error .fileNotFound
  | some .dirEntry => .error .notAFile
  | some (.fileEntry _) => .ok p

/-- `log_path.open(...)` (line 40): reading the lines of a validated
path; `open` itself raises the same two error kinds. -/
def readLines (fs : String → Option FsEntry) (p : String) :
    Except ScanFailure (List Line) :=
  match fs p with
  | none => .error .fileNotFound
  | some .dirEntry => .error .notAFile
  | some (.fileEntry ls) => .ok ls

/-- The CLI scan pipeline (`cli.py` lines 99–103): validate the path,
open and read it, then run `parse_log_file`; any failure propagates and
no result is produced. -/
def parse_log_path (fs : String → Option FsEntry) (p : String)
    (keywords : List (List Char)) (case_insensitive : Bool)
    (max_samples : Nat) (max_line_length : Nat) :
    Except ScanFailure LogParseResult :=
  match validate_file fs p with
  | .error e => .error e
  | .ok p2 =>
    match readLines fs p2 with
    | .error e => .error e
    | .ok ls => .ok (parse_log_file p2.toList ls keywords case_insensitive
        max_samples max_line_length)

/-! ## Helper lemmas -/

/-- `if kwMatch then dictBump else id`: the dict-only effect of one
inner-loop step. -/
def bumpIf (ci : Bool) (line : Line) (d : List (List Char × Nat))
    (kw : List Char) : List (List Char × Nat) :=
  if kwMatch ci kw line then dictBump d kw else d

theorem containsSub_iff (pat : List Char) :
    ∀ hay : List Char, containsSub pat hay = true ↔ pat <:+: hay := by
  intro hay
  induction hay with
  | nil =>
      simp [ containsSub, List.isPrefixOf_iff_prefix, List.prefix_nil,
        List.infix_nil]
  | cons c rest ih =>
      simp [ containsSub, List.isPrefixOf_iff_prefix, List.infix_cons_iff,
        ih]

theorem foldKw_fst (ci : Bool) (maxS idx : Nat) (line : Line)
    (kws : List (List Char)) :
    ∀ d s h, (kws.foldl (stepKeyword ci maxS idx line) (d, s, h)).1
      = kws.foldl (bumpIf ci line) d := by
  induction kws with
  | nil => intro d s h; rfl
  | cons k ks ih =>
      intro d s h
      simp only [List.foldl_cons]
      cases hkm : kwMatch ci k line with
      | false => simp [stepKeyword, bumpIf, hkm, ih]
      | true => simp [stepKeyword, bumpIf, hkm, ih]

theorem foldKw_hitAny (ci : Bool) (maxS idx : Nat) (line : Line)
    (kws : List (List Char)) :
    ∀ d s h, (kws.foldl (stepKeyword ci maxS idx line) (d, s, h)).2.2
      = (h || kws.any (fun kw => kwMatch ci kw line)) := by
  induction kws with
  | nil => intro d s h; simp
  | cons k ks ih =>
      intro d s h
      simp only [List.foldl_cons, List.any_cons]
      cases hkm : kwMatch ci k line with
      | false => simp [stepKeyword, hkm, ih]
      | true => simp [stepKeyword, hkm, ih]

theorem foldKw_samples_len (ci : Bool) (maxS idx : Nat) (line : Line)
    (kws : List (List Char)) :
    ∀ d s h, s.length ≤ maxS →
      (kws.foldl (stepKeyword ci maxS idx line) (d, s, h)).2.1.length
        ≤ maxS := by
  induction kws with
  | nil => intro d s h hs; simpa using hs
  | cons k ks ih =>
      intro d s h hs
      simp only [List.foldl_cons]
      cases hkm : kwMatch ci k line with
      | false => simp only [stepKeyword, hkm]; exact ih d s h hs
      | true =>
          simp only [stepKeyword, hkm, if_true]
          apply ih
          by_cases hlt : s.length < maxS
          · simp [hlt, List.length_append]; omega
          · simp [hlt]; omega

theorem foldKw_samples_bound (ci : Bool) (maxS idx : Nat) (line : Line)
    (B : Nat) (hB : (rstripNL line).length ≤ B) (kws : List (List Char)) :
    ∀ d s h, (∀ f ∈ s, f.line.length ≤ B) →
      ∀ f ∈ (kws.foldl (stepKeyword ci maxS idx line) (d, s, h)).2.1,
        f.line.length ≤ B := by
  induction kws with
  | nil => intro d s h hs; simpa using hs
  | cons k ks ih =>
      intro d s h hs
      simp only [List.foldl_cons]
      cases hkm : kwMatch ci k line with
      | false => simp only [stepKeyword, hkm]; exact ih d s h hs
      | true =>
          simp only [stepKeyword, hkm, if_true]
          apply ih
          by_cases hlt : s.length < maxS
          · simp only [hlt, if_true]
            intro f hf
            rcases List.mem_append.mp hf with hf1 | hf2
            · exact hs f hf1
            · rcases List.mem_singleton.mp hf2 with rfl
              exact hB
          · simp only [hlt, if_false]
            exact hs

theorem dictHasKey_bump (d : List (List Char × Nat)) (k k2 : List Char)
    (hk : dictHasKey d k2 = true) : dictHasKey (dictBump d k) k2 = true := by
  unfold dictBump
  by_cases hd : dictHasKey d k = true
  · simp only [hd, if_true]
    unfold dictHasKey at hk ⊢
    rw [List.any_map]
    rcases List.any_eq_true.mp hk with ⟨p, hp, hpk⟩
    apply List.any_eq_true.mpr
    refine ⟨p, hp, ?_⟩
    simp only [Function.comp]
    by_cases hpe : p.1 == k
    · simpa [hpe] using hpk
    · simpa [hpe] using hpk
  · rw [if_neg hd]
    unfold dictHasKey at hk ⊢
    rw [List.any_append]
    simp [hk]

theorem foldBumpIf_hasKey (ci : Bool) (line : Line) (k : List Char)
    (kws : List (List Char)) :
    ∀ d, dictHasKey d k = true →
      dictHasKey (kws.foldl (bumpIf ci line) d) k = true := by
  induction kws with
  | nil => intro d hd; simpa using hd
  | cons kw rest ih =>
      intro d hd
      simp only [List.foldl_cons]
      apply ih
      unfold bumpIf
      by_cases hm : kwMatch ci kw line = true
      · rw [if_pos hm]; exact dictHasKey_bump d kw k hd
      · rw [if_neg hm]; exact hd

theorem dictInit_hasKey_aux (k : List Char) (keys : List (List Char)) :
    ∀ d, (k ∈ keys ∨ dictHasKey d k = true) →
      dictHasKey (keys.foldl dictInsertZero d) k = true := by
  induction keys with
  | nil =>
      intro d h
      rcases h with h | h
      · cases h
      · simpa using h
  | cons a rest ih =>
      intro d h
      simp only [List.foldl_cons]
      have hpres : ∀ d2, dictHasKey d2 k = true →
          dictHasKey (dictInsertZero d2 a) k = true := by
        intro d2 hd2
        unfold dictInsertZero
        by_cases ha : dictHasKey d2 a = true
        · rw [if_pos ha]; exact hd2
        · rw [if_neg ha]
          unfold dictHasKey at hd2 ⊢
          rw [List.any_append]
          simp [hd2]
      rcases h with h | h
      · rcases List.mem_cons.mp h with rfl | hmem
        · apply ih
          right
          unfold dictInsertZero
          by_cases ha : dictHasKey d k = true
          · rw [if_pos ha]; exact ha
          · rw [if_neg ha]
            unfold dictHasKey
            rw [List.any_append]
            simp
        · exact ih _ (Or.inl hmem)
      · exact ih _ (Or.inr (hpres d h))

theorem dictInit_hasKey (keys : List (List Char)) (k : List Char)
    (hk : k ∈ keys) : dictHasKey (dictInit keys) k = true :=
  dictInit_hasKey_aux k keys [] (Or.inl hk)

theorem rstripNL_length_le (l : List Char) :
    (rstripNL l).length ≤ l.length := by
  unfold rstripNL
  simp only [List.length_reverse]
  exact (List.dropWhile_sublist _).length_le.trans
    (le_of_eq (List.length_reverse l))

theorem truncLine_length (maxL : Nat) (l : Line) (h : maxL < l.length) :
    (truncLine maxL l).length = maxL + truncMarker.length := by
  unfold truncLine
  rw [if_pos h]
  simp only [List.length_append, List.length_take]
  omega

theorem rstripNL_sample_bound (maxL : Nat) (raw : Line) :
    (rstripNL (truncLine maxL raw)).length ≤ maxL + truncMarker.length := by
  have h1 := rstripNL_length_le (truncLine maxL raw)
  by_cases h : maxL < raw.length
  · rw [truncLine_length maxL raw h] at h1
    omega
  · have h2 : (truncLine maxL raw).length ≤ maxL := by
      unfold truncLine
      rw [if_neg h]
      omega
    omega

theorem rstripNL_append_last (x : List Char) (c : Char)
    (hc : (c == '\n') = false) : rstripNL (x ++ [c]) = x ++ [c] := by
  unfold rstripNL
  rw [List.reverse_append]
  simp [List.dropWhile_cons, hc]

theorem truncMarker_split :
    truncMarker = "â€¦(truncated".toList ++ [')'] := by rfl

theorem rstripNL_trunc (x : List Char) :
    rstripNL (x ++ truncMarker) = x ++ truncMarker := by
  rw [truncMarker_split, ← List.append_assoc,
    rstripNL_append_last _ _ (by decide)]

theorem procLine_total (kws : List (List Char)) (ci : Bool)
    (maxS maxL idx : Nat) (raw : Line) (st : ScanState) :
    (procLine kws ci maxS maxL idx raw st).total = st.total + 1 := rfl

theorem procLine_matched (kws : List (List Char)) (ci : Bool)
    (maxS maxL idx : Nat) (raw : Line) (st : ScanState) :
    (procLine kws ci maxS maxL idx raw st).matched
      = st.matched + (if lineHits kws ci maxL raw then 1 else 0) := by
  show (if (kws.foldl (stepKeyword ci maxS idx (truncLine maxL raw))
      (st.by_kw, st.samples, false)).2.2
    then st.matched + 1 else st.matched) = _
  rw [foldKw_hitAny]
  unfold lineHits
  cases h : kws.any (fun kw => kwMatch ci kw (truncLine maxL raw)) with
  | false => simp [h]
  | true => simp [h]

theorem procLine_by_kw (kws : List (List Char)) (ci : Bool)
    (maxS maxL idx : Nat) (raw : Line) (st : ScanState) :
    (procLine kws ci maxS maxL idx raw st).by_kw
      = kws.foldl (bumpIf ci (truncLine maxL raw)) st.by_kw := by
  show (kws.foldl (stepKeyword ci maxS idx (truncLine maxL raw))
      (st.by_kw, st.samples, false)).1 = _
  rw [foldKw_fst]

theorem procLine_samples_len (kws : List (List Char)) (ci : Bool)
    (maxS maxL idx : Nat) (raw : Line) (st : ScanState)
    (hs : st.samples.length ≤ maxS) :
    (procLine kws ci maxS maxL idx raw st).samples.length ≤ maxS := by
  show (kws.foldl (stepKeyword ci maxS idx (truncLine maxL raw))
      (st.by_kw, st.samples, false)).2.1.length ≤ maxS
  exact foldKw_samples_len ci maxS idx _ kws _ _ _ hs

theorem procLine_samples_bound (kws : List (List Char)) (ci : Bool)
    (maxS maxL idx : Nat) (raw : Line) (st : ScanState)
    (hs : ∀ f ∈ st.samples, f.line.length ≤ maxL + truncMarker.length) :
    ∀ f ∈ (procLine kws ci maxS maxL idx raw st).samples,
      f.line.length ≤ maxL + truncMarker.length := by
  show ∀ f ∈ (kws.foldl (stepKeyword ci maxS idx (truncLine maxL raw))
      (st.by_kw, st.samples, false)).2.1, _
  exact foldKw_samples_bound ci maxS idx _ _
    (rstripNL_sample_bound maxL raw) kws _ _ _ hs

theorem scanLoop_total (kws : List (List Char)) (ci : Bool)
    (maxS maxL : Nat) (ls : List Line) :
    ∀ idx st, (scanLoop kws ci maxS maxL ls idx st).total
      = st.total + ls.length := by
  induction ls with
  | nil => intro idx st; simp [scanLoop]
  | cons l rest ih =>
      intro idx st
      rw [scanLoop, ih, procLine_total]
      simp only [List.length_cons]
      omega

theorem scanLoop_matched (kws : List (List Char)) (ci : Bool)
    (maxS maxL : Nat) (ls : List Line) :
    ∀ idx st, (scanLoop kws ci maxS maxL ls idx st).matched
      = st.matched + ls.countP (lineHits kws ci maxL) := by
  induction ls with
  | nil => intro idx st; simp [scanLoop]
  | cons l rest ih =>
      intro idx st
      rw [scanLoop, ih, procLine_matched, List.countP_cons]
      cases h : lineHits kws ci maxL l with
      | false => simp [h]
      | true => simp [h]; omega

theorem scanLoop_by_kw (kws : List (List Char)) (ci : Bool)
    (maxS maxL : Nat) (ls : List Line) :
    ∀ idx st, (scanLoop kws ci maxS maxL ls idx st).by_kw
      = ls.foldl (fun d raw => kws.foldl (bumpIf ci (truncLine maxL raw)) d)
          st.by_kw := by
  induction ls with
  | nil => intro idx st; simp [scanLoop]
  | cons l rest ih =>
      intro idx st
      rw [scanLoop, ih, List.foldl_cons, procLine_by_kw]

theorem scanLoop_samples_len (kws : List (List Char)) (ci : Bool)
    (maxS maxL : Nat) (ls : List Line) :
    ∀ idx st, st.samples.length ≤ maxS →
      (scanLoop kws ci maxS maxL ls idx st).samples.length ≤ maxS := by
  induction ls with
  | nil => intro idx st h; simpa [scanLoop] using h
  | cons l rest ih =>
      intro idx st h
      rw [scanLoop]
      exact ih _ _ (procLine_samples_len kws ci maxS maxL idx l st h)

theorem scanLoop_samples_bound (kws : List (List Char)) (ci : Bool)
    (maxS maxL : Nat) (ls : List Line) :
    ∀ idx st,
      (∀ f ∈ st.samples, f.line.length ≤ maxL + truncMarker.length) →
      ∀ f ∈ (scanLoop kws ci maxS maxL ls idx st).samples,
        f.line.length ≤ maxL + truncMarker.length := by
  induction ls with
  | nil => intro idx st h; simpa [scanLoop] using h
  | cons l rest ih =>
      intro idx st h
      rw [scanLoop]
      exact ih _ _ (procLine_samples_bound kws ci maxS maxL idx l st h)

theorem scanLoop_hasKey (kws : List (List Char)) (ci : Bool)
    (maxS maxL : Nat) (k : List Char) (ls : List Line) :
    ∀ idx st, dictHasKey st.by_kw k = true →
      dictHasKey (scanLoop kws ci maxS maxL ls idx st).by_kw k = true := by
  induction ls with
  | nil => intro idx st h; simpa [scanLoop] using h
  | cons l rest ih =>
      intro idx st h
      rw [scanLoop]
      apply ih
      rw [procLine_by_kw]
      exact foldBumpIf_hasKey ci _ k kws st.by_kw h

/-! ## Claims -/

/-- C1: scanning the three-line file `"ok"`, `"ERROR disk"`,
`"warn: error rate high"` for keywords `["error","warn"]`
case-insensitively with default `max_samples`/`max_line_length` yields
`total_lines = 3`, `matched_lines = 2`, `by_keyword` mapping
`{"error": 2, "warn": 1}`, and exactly 3 sample entries: one for line 2
with keyword `"error"` and two for line 3, one per matching keyword. -/
theorem claim_C1 :
    parse_log_file "app.log".toList
      ["ok\n".toList, "ERROR disk\n".toList, "warn: error rate high".toList]
      ["error".toList, "warn".toList] true 50 5000
    = { file := "app.log".toList
        total_lines := 3
        matched_lines := 2
        by_keyword := [("error".toList, 2), ("warn".toList, 1)]
        samples :=
          [⟨2, "error".toList, "ERROR disk".toList⟩,
           ⟨3, "error".toList, "warn: error rate high".toList⟩,
           ⟨3, "warn".toList, "warn: error rate high".toList⟩] } := by
  decide

/-- C2: for every file, keyword list and flags, `matched_lines` equals
the number of lines that match at least one (effective) keyword — a line
matching several keywords contributes exactly 1 — hence
`matched_lines ≤ total_lines`, and `total_lines` counts every line. -/
theorem claim_C2 (fp : List Char) (lines : List Line)
    (keywords : List (List Char)) (ci : Bool) (maxS maxL : Nat) :
    (parse_log_file fp lines keywords ci maxS maxL).matched_lines
      = lines.countP (lineHits (effKeywords keywords) ci maxL)
    ∧ (parse_log_file fp lines keywords ci maxS maxL).matched_lines
      ≤ (parse_log_file fp lines keywords ci maxS maxL).total_lines
    ∧ (parse_log_file fp lines keywords ci maxS maxL).total_lines
      = lines.length := by
  have hm : (parse_log_file fp lines keywords ci maxS maxL).matched_lines
      = lines.countP (lineHits (effKeywords keywords) ci maxL) := by
    show (scanLoop (effKeywords keywords) ci maxS maxL lines 1
      ⟨0, 0, dictInit (effKeywords keywords), []⟩).matched = _
    rw [scanLoop_matched]
    simp
  have ht : (parse_log_file fp lines keywords ci maxS maxL).total_lines
      = lines.length := by
    show (scanLoop (effKeywords keywords) ci maxS maxL lines 1
      ⟨0, 0, dictInit (effKeywords keywords), []⟩).total = _
    rw [scanLoop_total]
    simp
  refine ⟨hm, ?_, ht⟩
  rw [hm, ht]
  exact List.countP_le_length _

/-- C3: every keyword supplied to `parse_log_file` is a key of the
returned `by_keyword` mapping, including keywords with zero matches. -/
theorem claim_C3 (fp : List Char) (lines : List Line)
    (keywords : List (List Char)) (ci : Bool) (maxS maxL : Nat)
    (kw : List Char) (hkw : kw ∈ keywords) :
    dictHasKey (parse_log_file fp lines keywords ci maxS maxL).by_keyword kw
      = true := by
  have heff : kw ∈ effKeywords keywords := by
    unfold effKeywords
    cases keywords with
    | nil => cases hkw
    | cons a as => simpa using hkw
  show dictHasKey (scanLoop (effKeywords keywords) ci maxS maxL lines 1
    ⟨0, 0, dictInit (effKeywords keywords), []⟩).by_kw kw = true
  exact scanLoop_hasKey _ ci maxS maxL kw lines 1 _
    (dictInit_hasKey _ kw heff)

/-- Witness for C3: keyword `"warn"` with zero matches is still a key. -/
theorem claim_C3_witness :
    dictHasKey (parse_log_file "a.log".toList ["ok".toList]
      ["warn".toList] true 50 5000).by_keyword "warn".toList = true :=
  claim_C3 "a.log".toList ["ok".toList] ["warn".toList] true 50 5000
    "warn".toList (by decide)

/-- C4: the samples list has length at most `max_samples`, and
`total_lines`, `matched_lines` and `by_keyword` are identical to those
of a run with any other sample cap (in particular an unbounded one) —
counting continues after the sample buffer is full. -/
theorem claim_C4 (fp : List Char) (lines : List Line)
    (keywords : List (List Char)) (ci : Bool) (maxS maxL maxS2 : Nat) :
    (parse_log_file fp lines keywords ci maxS maxL).samples.length ≤ maxS
    ∧ (parse_log_file fp lines keywords ci maxS maxL).total_lines
      = (parse_log_file fp lines keywords ci maxS2 maxL).total_lines
    ∧ (parse_log_file fp lines keywords ci maxS maxL).matched_lines
      = (parse_log_file fp lines keywords ci maxS2 maxL).matched_lines
    ∧ (parse_log_file fp lines keywords ci maxS maxL).by_keyword
      = (parse_log_file fp lines keywords ci maxS2 maxL).by_keyword := by
  refine ⟨?_, ?_, ?_, ?_⟩
  · show (scanLoop (effKeywords keywords) ci maxS maxL lines 1
      ⟨0, 0, dictInit (effKeywords keywords), []⟩).samples.length ≤ maxS
    exact scanLoop_samples_len _ ci maxS maxL lines 1 _ (by simp)
  · show (scanLoop (effKeywords keywords) ci maxS maxL lines 1
        ⟨0, 0, dictInit (effKeywords keywords), []⟩).total
      = (scanLoop (effKeywords keywords) ci maxS2 maxL lines 1
        ⟨0, 0, dictInit (effKeywords keywords), []⟩).total
    rw [scanLoop_total, scanLoop_total]
  · show (scanLoop (effKeywords keywords) ci maxS maxL lines 1
        ⟨0, 0, dictInit (effKeywords keywords), []⟩).matched
      = (scanLoop (effKeywords keywords) ci maxS2 maxL lines 1
        ⟨0, 0, dictInit (effKeywords keywords), []⟩).matched
    rw [scanLoop_matched, scanLoop_matched]
  · show (scanLoop (effKeywords keywords) ci maxS maxL lines 1
        ⟨0, 0, dictInit (effKeywords keywords), []⟩).by_kw
      = (scanLoop (effKeywords keywords) ci maxS2 maxL lines 1
        ⟨0, 0, dictInit (effKeywords keywords), []⟩).by_kw
    rw [scanLoop_by_kw, scanLoop_by_kw]

/-- C5: a line is truncated exactly when its length exceeds
`max_line_length`: longer lines are cut to `max_line_length` characters
with the truncation marker appended before matching, shorter lines are
left alone; a sampled truncated line's text has length
`max_line_length + truncMarker.length`, and no sample's text is ever
longer than that. -/
theorem claim_C5 (maxL : Nat) (line : Line) (fp : List Char)
    (lines : List Line) (keywords : List (List Char)) (ci : Bool)
    (maxS : Nat) :
    (maxL < line.length →
      truncLine maxL line = line.take maxL ++ truncMarker)
    ∧ (line.length ≤ maxL → truncLine maxL line = line)
    ∧ (maxL < line.length →
      (rstripNL (truncLine maxL line)).length = maxL + truncMarker.length)
    ∧ (∀ f ∈ (parse_log_file fp lines keywords ci maxS maxL).samples,
      f.line.length ≤ maxL + truncMarker.length) := by
  refine ⟨?_, ?_, ?_, ?_⟩
  · intro h
    unfold truncLine
    rw [if_pos h]
  · intro h
    unfold truncLine
    rw [if_neg (by omega)]
  · intro h
    unfold truncLine
    rw [if_pos h, rstripNL_trunc]
    simp only [List.length_append, List.length_take]
    omega
  · show ∀ f ∈ (scanLoop (effKeywords keywords) ci maxS maxL lines 1
      ⟨0, 0, dictInit (effKeywords keywords), []⟩).samples, _
    exact scanLoop_samples_bound _ ci maxS maxL lines 1 _ (by simp)

/-- Witness for C5: `max_line_length = 1` on the two-character line
`"ab"` truncates; `max_line_length = 3` leaves it alone; the sampled
text of a truncated matching line has the stated exact length. -/
theorem claim_C5_witness :
    truncLine 1 "ab".toList = "a".toList ++ truncMarker
    ∧ truncLine 3 "ab".toList = "ab".toList
    ∧ (rstripNL (truncLine 1 "ab".toList)).length = 1 + truncMarker.length
    ∧ (∀ f ∈ (parse_log_file "f".toList ["ab".toList] ["a".toList]
        true 50 1).samples, f.line.length ≤ 1 + truncMarker.length) :=
  ⟨(claim_C5 1 "ab".toList "f".toList ["ab".toList] ["a".toList] true
      50).1 (by decide),
   (claim_C5 3 "ab".toList "f".toList ["ab".toList] ["a".toList] true
      50).2.1 (by decide),
   (claim_C5 1 "ab".toList "f".toList ["ab".toList] ["a".toList] true
      50).2.2.1 (by decide),
   (claim_C5 1 "ab".toList "f".toList ["ab".toList] ["a".toList] true
      50).2.2.2⟩

/-- C6: the keyword matcher reports a match iff the keyword occurs as a
literal substring of the line — after lowering both sides in
case-insensitive mode, verbatim otherwise — with no pattern-language
interpretation of any character of the keyword (the keyword is a plain
character list; `re.escape` in the source makes the compiled pattern
literal). -/
theorem claim_C6 (ci : Bool) (kw line : List Char) :
    (kwMatch ci kw line = true
      ↔ ∃ s t, s ++ foldCase ci kw ++ t = foldCase ci line)
    ∧ foldCase false kw = kw
    ∧ foldCase true kw = kw.map Char.toLower := by
  refine ⟨?_, rfl, rfl⟩
  unfold kwMatch
  rw [containsSub_iff]
  exact Iff.rfl

/-- C7: scanning with an empty keyword list returns exactly the same
result as scanning with the single-keyword list `["error"]`. -/
theorem claim_C7 (fp : List Char) (lines : List Line) (ci : Bool)
    (maxS maxL : Nat) :
    parse_log_file fp lines [] ci maxS maxL
      = parse_log_file fp lines ["error".toList] ci maxS maxL := rfl

/-- C8: a missing path fails with the FileNotFound kind, a path that
exists but is not a regular file fails with the NotAFile kind, and in
every failure case no partial result is produced — a success carries the
complete scan of the whole file. -/
theorem claim_C8 (fs : String → Option FsEntry) (p : String)
    (keywords : List (List Char)) (ci : Bool) (maxS maxL : Nat) :
    (fs p = none →
      parse_log_path fs p keywords ci maxS maxL
        = Except.error ScanFailure.fileNotFound)
    ∧ (fs p = some FsEntry.dirEntry →
      parse_log_path fs p keywords ci maxS maxL
        = Except.error ScanFailure.notAFile)
    ∧ (∀ ls, fs p = some (FsEntry.fileEntry ls) →
      parse_log_path fs p keywords ci maxS maxL
        = Except.ok (parse_log_file p.toList ls keywords ci maxS maxL)) := by
  refine ⟨?_, ?_, ?_⟩
  · intro h
    simp [parse_log_path, validate_file, readLines, h]
  · intro h
    simp [parse_log_path, validate_file, readLines, h]
  · intro ls h
    simp [parse_log_path, validate_file, readLines, h]

/-- A tiny concrete filesystem: one regular file and one directory. -/
def demoFs : String → Option FsEntry :=
  fun q =>
    if q = "app.log" then some (FsEntry.fileEntry ["ok".toList])
    else if q = "logs" then some FsEntry.dirEntry
    else none

/-- Witness for C8 on `demoFs`: missing path, directory, regular file. -/
theorem claim_C8_witness :
    parse_log_path demoFs "missing.log" [] true 50 5000
      = Except.error ScanFailure.fileNotFound
    ∧ parse_log_path demoFs "logs" [] true 50 5000
      = Except.error ScanFailure.notAFile
    ∧ parse_log_path demoFs "app.log" [] true 50 5000
      = Except.ok (parse_log_file "app.log".toList ["ok".toList] []
          true 50 5000) :=
  ⟨(claim_C8 demoFs "missing.log" [] true 50 5000).1 (by decide),
   (claim_C8 demoFs "logs" [] true 50 5000).2.1 (by decide),
   (claim_C8 demoFs "app.log" [] true 50 5000).2.2
     ["ok".toList] (by decide)⟩

/-- C9: because the truncation marker is appended before matching, the
marker itself can create a match: the line `"aaaaa"` with
`max_line_length = 3` does not contain the keyword `"truncated"`, yet
the keyword is counted and sampled, the sampled text being the
truncated line with the marker. -/
theorem claim_C9 :
    kwMatch true "truncated".toList "aaaaa".toList = false
    ∧ (parse_log_file "f".toList ["aaaaa".toList] ["truncated".toList]
        true 50 3).by_keyword = [("truncated".toList, 1)]
    ∧ (parse_log_file "f".toList ["aaaaa".toList] ["truncated".toList]
        true 50 3).matched_lines = 1
    ∧ (parse_log_file "f".toList ["aaaaa".toList] ["truncated".toList]
        true 50 3).samples
      = [⟨1, "truncated".toList, "aaa".toList ++ truncMarker⟩] := by
  refine ⟨by decide, by decide, by decide, by decide⟩

/-- C10: a keyword duplicated in the keyword list yields a single key in
`by_keyword`, but each matching line bumps that one counter once per
duplicate (twice for a doubled keyword) and can append one sample per
duplicate, so the stored count can exceed the number of matching
lines. -/
theorem claim_C10 :
    (∀ (fp : List Char) (lines : List Line) (kw : List Char) (ci : Bool)
      (maxS maxL : Nat),
      (parse_log_file fp lines [kw, kw] ci maxS maxL).by_keyword
        = [(kw, 2 * lines.countP
            (fun l => kwMatch ci kw (truncLine maxL l)))])
    ∧ (parse_log_file "f".toList ["x error".toList]
        ["error".toList, "error".toList] true 50 5000).by_keyword
      = [("error".toList, 2)]
    ∧ (parse_log_file "f".toList ["x error".toList]
        ["error".toList, "error".toList] true 50 5000).samples.length = 2
    ∧ ["x error".toList].countP (fun l => kwMatch true "error".toList l)
      < dictGet (parse_log_file "f".toList ["x error".toList]
          ["error".toList, "error".toList] true 50 5000).by_keyword
          "error".toList := by
  refine ⟨?_, by decide, by decide, by decide⟩
  intro fp lines kw ci maxS maxL
  have hinit : dictInit [kw, kw] = [(kw, 0)] := by
    simp [dictInit, dictInsertZero, dictHasKey]
  have hbump : ∀ c, dictBump [(kw, c)] kw = [(kw, c + 1)] := by
    intro c
    simp [dictBump, dictHasKey]
  have hline : ∀ (raw : Line) (c : Nat),
      List.foldl (bumpIf ci (truncLine maxL raw)) [(kw, c)] [kw, kw]
        = if kwMatch ci kw (truncLine maxL raw) then [(kw, c + 2)]
          else [(kw, c)] := by
    intro raw c
    cases h : kwMatch ci kw (truncLine maxL raw) with
    | false => simp [bumpIf, h]
    | true => simp [List.foldl_cons, bumpIf, h, hbump]
  have main : ∀ (ls : List Line) (c : Nat),
      ls.foldl (fun d raw =>
          List.foldl (bumpIf ci (truncLine maxL raw)) d [kw, kw])
        [(kw, c)]
      = [(kw, c + 2 * ls.countP
          (fun l => kwMatch ci kw (truncLine maxL l)))] := by
    intro ls
    induction ls with
    | nil => intro c; simp
    | cons l rest ih =>
        intro c
        rw [List.foldl_cons, hline l c]
        cases h : kwMatch ci kw (truncLine maxL l) with
        | false =>
            rw [if_neg (by simp [h]), ih c, List.countP_cons]
            simp [h]
        | true =>
            rw [if_pos (by simp [h]), ih (c + 2), List.countP_cons]
            simp [h]
            omega
  show (scanLoop (effKeywords [kw, kw]) ci maxS maxL lines 1
    ⟨0, 0, dictInit (effKeywords [kw, kw]), []⟩).by_kw = _
  have heff : effKeywords [kw, kw] = [kw, kw] := rfl
  rw [heff, scanLoop_by_kw, hinit, main lines 0]
  simp
